import Mathlib

/-!
Shallow embedding of the reviewer-matching pipeline in `src/main.py`.

Modelling conventions:
* Text is `String`; embedding vectors are lists of rationals (`Vec`), standing
  for the fixed-dimension float vectors of the embedding provider.
* The sentence-embedding model (`SentenceTransformer.encode` with
  `normalize_embeddings=True`) is an external collaborator; it is modelled as
  an arbitrary pure function `embed : String → Vec`.  Where a claim needs the
  provider's contract (unit-norm output) it appears as a hypothesis.
* `sentence_transformers.util.semantic_search` is library code used with a
  single query, a single corpus chunk and `top_k` equal to the corpus size.
  Its score function `cos_sim` normalizes both arguments, which is the
  identity on the unit-norm vectors the provider guarantees, so the score is
  modelled as the dot product; the final Python `sorted(..., reverse=True)`
  is a stable descending sort by score over the index-ordered score list,
  modelled by insertion sort with the reflexive by-score order.
* IEEE-754 `NaN` (the result of `torch.mean` over an empty slice) is modelled
  by `Option`: `none` is a NaN vector / an undefined value, and its
  propagation through the similarity and sort renders the whole search result
  undefined (`Option.none` at the result level).
* A raised Python exception is `Except.error`; a run that raises performs no
  subsequent step, in particular no output write.
-/

/-- Embedding vectors: fixed-dimension numeric vectors over the rationals. -/
abbrev Vec := List ℚ

/-- Dot product of two vectors, `(u * v).sum` componentwise. -/
def dot (u v : Vec) : ℚ := (List.zipWith (· * ·) u v).sum

/-- Squared Euclidean norm of a vector. -/
def normSq (v : Vec) : ℚ := dot v v

/-- Componentwise sum of two vectors of the same dimension. -/
def vadd (u v : Vec) : Vec := List.zipWith (· + ·) u v

/-- Scalar multiple of a vector. -/
def vscale (c : ℚ) (v : Vec) : Vec := v.map (fun x => c * x)

/-- Componentwise sum of a nonempty stack of vectors (`torch.sum` over dim 0). -/
def vsum : List Vec → Vec
  | [] => []
  | v :: vs => vs.foldl vadd v

/-- Arithmetic mean of a stack of vectors: `torch.mean(stack, dim=0)` for a
nonempty stack is the componentwise sum scaled by the reciprocal count. -/
def vmean (vs : List Vec) : Vec := vscale (1 / (vs.length : ℚ)) (vsum vs)

/-- Mean of a slice of the embedding matrix.  `torch.mean` over an empty
slice yields a NaN vector, modelled as `none`; a nonempty slice yields the
arithmetic mean `vmean`. -/
def meanOpt (vs : List Vec) : Option Vec :=
  if vs.isEmpty then none else some (vmean vs)

/-- Collects a list of possibly-NaN vectors: `none` as soon as one entry is
NaN (NaN poisons every similarity score computed from the stacked corpus),
otherwise the list of defined vectors. -/
def sequenceOption {α : Type} : List (Option α) → Option (List α)
  | [] => some []
  | none :: _ => none
  | some v :: os => (sequenceOption os).map (fun vs => v :: vs)

/-- One publication record: `{title, abstract}` (data model of `main.py`). -/
structure Publication where
  title : String
  abstract : String
deriving DecidableEq, Repr

/-- Text form of one publication, the f-string of `main.py` line 91:
`f"Title: {pub['title']}\nAbstract: {pub['abstract']}"`. -/
def pubText (p : Publication) : String :=
  "Title: " ++ p.title ++ "\nAbstract: " ++ p.abstract

/-- Query record `{title, abstract}` read from the query file. -/
structure QueryDict where
  title : String
  abstract : String
deriving DecidableEq, Repr

/-- Embeds `build_query` of `main.py` (lines 59-69): the f-string
`f"Title: {query_dict['title']}\nAbstract: {query_dict['abstract']}"`. -/
def build_query (query_dict : QueryDict) : String :=
  "Title: " ++ query_dict.title ++ "\nAbstract: " ++ query_dict.abstract

/-- Running sums of a list starting from accumulator `k`
(`np.cumsum` semantics, generalized by the start value). -/
def cumsumFrom (k : ℕ) : List ℕ → List ℕ
  | [] => []
  | x :: xs => (k + x) :: cumsumFrom (k + x) xs

/-- Embeds `np.cumsum`: running sums of a list of counts. -/
def cumsum (l : List ℕ) : List ℕ := cumsumFrom 0 l

/-- Consecutive (low, high) boundary pairs starting at offset `k` for a list
of counts; specification-side description of `zip(low, high)`. -/
def pairsFrom (k : ℕ) : List ℕ → List (ℕ × ℕ)
  | [] => []
  | x :: xs => (k, k + x) :: pairsFrom (k + x) xs

/-- Python list slice `l[a:b]` for `a ≤ b` within range. -/
def pySlice {α : Type} (l : List α) (a b : ℕ) : List α :=
  (l.drop a).take (b - a)

/-- Embeds the "aggregate" branch of `compute_fitness` (lines 85-95 of
`main.py`): per-author publication counts, prefix-sum slice boundaries
`low, high = np.cumsum([0] + n[:-1]), np.cumsum(n)`, the concatenation
`sum(list_of_authors, [])`, one batched embedding of all publication texts,
and the per-author slice means `torch.mean(all_pub_embedding[l:h], dim=0)`.
Returns one possibly-NaN vector per author, in author order. -/
def aggregate_corpus (embed : String → Vec) (list_of_authors : List (List Publication)) :
    List (Option Vec) :=
  let n_pub_per_author := list_of_authors.map List.length
  let low := cumsum (0 :: n_pub_per_author.dropLast)
  let high := cumsum n_pub_per_author
  let stacked_pubs := list_of_authors.foldl (· ++ ·) []
  let stacked_texts := stacked_pubs.map pubText
  let all_pub_embedding := stacked_texts.map embed
  (low.zip high).map (fun lh => meanOpt (pySlice all_pub_embedding lh.1 lh.2))

/-- Specification-side definition for the refinement claim: each author's
publications are embedded independently and averaged, with no batching and no
slice arithmetic ("embedding each author's publications independently and
averaging them"). -/
def per_author_corpus (embed : String → Vec) (list_of_authors : List (List Publication)) :
    List (Option Vec) :=
  list_of_authors.map (fun pubs => meanOpt (pubs.map (fun p => embed (pubText p))))

/-- The prefix-sum slices of the concatenated publication list, at the level
of publications (before embedding): the `[l:h]` slices of
`sum(list_of_authors, [])` taken at the same boundaries `zip(low, high)`
that `compute_fitness` uses. -/
def author_slices (list_of_authors : List (List Publication)) : List (List Publication) :=
  let n_pub_per_author := list_of_authors.map List.length
  let low := cumsum (0 :: n_pub_per_author.dropLast)
  let high := cumsum n_pub_per_author
  let stacked_pubs := list_of_authors.foldl (· ++ ·) []
  (low.zip high).map (fun lh => pySlice stacked_pubs lh.1 lh.2)

/-- One ranked search hit, the dict `{'corpus_id': i, 'score': s}` returned
by `semantic_search`. -/
structure RankedEntry where
  corpus_id : ℕ
  score : ℚ
deriving DecidableEq, Repr

/-- The `(corpus index, score)` pairs emitted by `torch.topk(cos_scores,
min(top_k, n), largest=True, sorted=False)` and the `zip` that follows.  The
score of corpus row `i` is the library's `cos_sim` value.  `cos_sim`
L2-normalizes both of its arguments; on the unit-norm vectors the embedding
provider guarantees this normalization is the identity and the score is the
plain dot product used here.  For a corpus row of non-unit norm (the
"aggregate" means) the program's true score is `dot q m / ‖m‖`, which is
irrational in general and not representable in this rational model: the
model keeps the unnormalized `dot q m`, which differs from the program's
score by the positive per-row factor `1 / ‖m‖`.  Every claim about actual
score values therefore carries unit-norm hypotheses; the remaining claims
are structural in the score field.  This program always calls with
`top_k = n`, where the `topk` selection is total; its emission order for
`sorted=False` is modelled as index order. -/
def scoreEntries (query_embedding : Vec) (corpus : List Vec) : List RankedEntry :=
  (List.range corpus.length).map
    (fun i => { corpus_id := i, score := dot query_embedding (corpus.getD i []) })

/-- Python's stable `sorted(heap, key=score, reverse=True)` inserts an
earlier element before a later one exactly when its score is at least as
large, so the comparison of the descending stable sort is reflexive
by-score `≥`. -/
def searchRel (a b : RankedEntry) : Prop := b.score ≤ a.score

instance : DecidableRel searchRel :=
  fun a b => inferInstanceAs (Decidable (b.score ≤ a.score))

instance : IsTotal RankedEntry searchRel :=
  ⟨fun a b => le_total b.score a.score⟩

instance : IsTrans RankedEntry searchRel :=
  ⟨fun _ _ _ h1 h2 => le_trans h2 h1⟩

/-- Python's `<` on the `[score, corpus_id]` lists that `semantic_search`
pushes onto its heap: lexicographic comparison, score first. -/
def heapLt (a b : RankedEntry) : Prop :=
  a.score < b.score ∨ (a.score = b.score ∧ a.corpus_id < b.corpus_id)

instance : DecidableRel heapLt :=
  fun a b => inferInstanceAs
    (Decidable (a.score < b.score ∨ (a.score = b.score ∧ a.corpus_id < b.corpus_id)))

/-- CPython `heapq._siftdown(heap, startpos, pos)`: walk from `pos` toward
`startpos`, moving the new item up past every strictly greater parent.  The
original shifts parents down and writes the new item once at its final
position; performing a swap at each step yields the identical array, and is
how the walk is expressed here. -/
def heap_siftdown (heap : List RankedEntry) (startpos pos : ℕ) : List RankedEntry :=
  if _h : startpos < pos then
    match heap[pos]?, heap[(pos - 1) / 2]? with
    | some item, some parent =>
      if heapLt item parent then
        heap_siftdown ((heap.set pos parent).set ((pos - 1) / 2) item) startpos ((pos - 1) / 2)
      else heap
    | _, _ => heap
  else heap
termination_by pos
decreasing_by omega

/-- CPython `heapq.heappush`: append the item and sift it toward the root. -/
def heappush (heap : List RankedEntry) (item : RankedEntry) : List RankedEntry :=
  heap_siftdown (heap ++ [item]) 0 heap.length

/-- Child selection of CPython `heapq._siftup`: the right child when it
exists and is not greater than the left child, the left child otherwise. -/
def pickChild (heap : List RankedEntry) (c0 : ℕ) : ℕ :=
  match heap[c0]?, heap[c0 + 1]? with
  | some left, some right => if ¬ heapLt left right then c0 + 1 else c0
  | _, _ => c0

/-- Descent loop of CPython `heapq._siftup(heap, pos)`: while a child
exists, swap the current item with its smaller child and continue there;
returns the array and the final position.  The original moves the smaller
child up into the hole and writes the item once at the final leaf; since the
hole always holds the sifted item here, swapping at each step produces the
identical array. -/
def heap_siftup_loop (heap : List RankedEntry) (pos : ℕ) : List RankedEntry × ℕ :=
  match _h1 : heap[pos]?, h2 : heap[pickChild heap (2 * pos + 1)]? with
  | some item, some child =>
      heap_siftup_loop ((heap.set pos child).set (pickChild heap (2 * pos + 1)) item)
        (pickChild heap (2 * pos + 1))
  | _, _ => (heap, pos)
termination_by heap.length - pos
decreasing_by
  simp only [List.length_set]
  have h3 : pickChild heap (2 * pos + 1) < heap.length := by
    by_contra hge
    push_neg at hge
    rw [List.getElem?_eq_none hge] at h2
    exact absurd h2 (by simp)
  have h4 : 2 * pos + 1 ≤ pickChild heap (2 * pos + 1) := by
    unfold pickChild
    split
    · split <;> omega
    · omega
  omega

/-- CPython `heapq._siftup(heap, pos)`: bubble down to a leaf along the
smaller-child path, then sift the moved item back toward `pos`. -/
def heap_siftup (heap : List RankedEntry) (pos : ℕ) : List RankedEntry :=
  let lp := heap_siftup_loop heap pos
  heap_siftdown lp.1 pos lp.2

/-- CPython `heapq.heappushpop(heap, item)`: if the heap is nonempty and its
root is smaller than the item, replace the root with the item and restore
the heap; `semantic_search` discards the returned ejected value, so only the
resulting heap is modelled. -/
def heappushpop (heap : List RankedEntry) (item : RankedEntry) : List RankedEntry :=
  match heap[0]? with
  | some root => if heapLt root item then heap_siftup (heap.set 0 item) 0 else heap
  | none => heap

/-- Per-entry body of the collection loop of
`sentence_transformers.util.semantic_search`: push while the heap holds
fewer than `top_k` entries, push-pop once it is full. -/
def heapInsert (top_k : ℕ) (heap : List RankedEntry) (item : RankedEntry) :
    List RankedEntry :=
  if heap.length < top_k then heappush heap item else heappushpop heap item

/-- Embeds `sentence_transformers.util.semantic_search` for one query
embedding and one corpus chunk: the emitted (index, score) pairs are pushed
one by one onto a `heapq` min-heap of `[score, corpus_id]` lists (capped at
`top_k` by push-pop, never reached in this program where `top_k` is the
corpus size), and the heap's internal array order is then stably sorted by
descending score.  Equal-score entries therefore appear in the heap-array
order the pushes produced, not in ascending corpus-index order. -/
def semantic_search (query_embedding : Vec) (corpus : List Vec) (top_k : ℕ) :
    List RankedEntry :=
  let entries := scoreEntries query_embedding corpus
  let heap := entries.foldl (heapInsert top_k) []
  List.insertionSort searchRel heap

/-- The duck-typed `list_of_authors` argument of `compute_fitness`: a list of
per-author publication lists under "aggregate", a list of per-author summary
strings under "summarize". -/
inductive AuthorsInput where
  | pubs (lists : List (List Publication))
  | texts (l : List String)
deriving DecidableEq, Repr

/-- Pool size of the `list_of_authors` argument (`len(list_of_authors)`). -/
def AuthorsInput.numAuthors : AuthorsInput → ℕ
  | .pubs lists => lists.length
  | .texts l => l.length

/-- Embeds `compute_fitness` (lines 71-100 of `main.py`).  The query is
embedded, then the policy dispatch: "aggregate" builds the per-author mean
corpus from one batched embedding of all stacked publications; "summarize"
embeds the author summaries directly; any other policy raises
`NotImplementedError`, modelled as `Except.error` with the message of line
99.  `semantic_search` is called with `top_k = len(list_of_authors)`.  A
result of `Except.ok none` is a NaN-poisoned (undefined) search result; a
policy/argument shape mismatch, which main never produces, would raise a
`TypeError` in Python and is an `Except.error` here. -/
def compute_fitness (embed : String → Vec) (query : String)
    (list_of_authors : AuthorsInput) (author_embedding : String) :
    Except String (Option (List RankedEntry)) :=
  let query_embedding := embed query
  if author_embedding = "aggregate" then
    match list_of_authors with
    | .pubs lists =>
      match sequenceOption (aggregate_corpus embed lists) with
      | some corpus_embedding =>
        .ok (some (semantic_search query_embedding corpus_embedding lists.length))
      | none => .ok none
    | .texts _ => .error "TypeError"
  else if author_embedding = "summarize" then
    match list_of_authors with
    | .texts l =>
      .ok (some (semantic_search query_embedding (l.map embed) l.length))
    | .pubs _ => .error "TypeError"
  else
    .error ("Author Embedding:" ++ author_embedding ++ " method not implemented")

/-- One raw database record (`read_jsonl` output line): author name plus the
publication URLs or contents. -/
structure RawRecord where
  name : String
  publication_urls : List String
deriving DecidableEq, Repr

/-- One processed author profile, an element of the cached
`log/author_profile.json` array: `{name, summary, list_of_pubs}`. -/
structure AuthorProfile where
  name : String
  summary : String
  list_of_pubs : List Publication
deriving DecidableEq, Repr

/-- One output record written by `main` (lines 141-145):
`{name, fitness, explanation}`. -/
structure Result where
  name : String
  fitness : ℚ
  explanation : String
deriving DecidableEq, Repr

/-- One invocation of the external `generate_justification` collaborator,
recorded with the arguments the orchestrator passes (line 140): the query
record, the author's summary, and the rounded percentage score. -/
structure JustCall where
  query : QueryDict
  summary : String
  score : ℤ
deriving DecidableEq, Repr

/-- Observable outcome of one completed run: the output file path, the lines
written to it (in write order), the accumulated results (in rank order), and
the trace of justification calls (in call order: the list position is the
temporal position, call `i` is issued before call `i+1`). -/
structure MainOutput where
  out_path : String
  lines : List String
  results : List Result
  just_calls : List JustCall
deriving DecidableEq, Repr

/-- Embeds the cache gate of `main` (lines 114-125): when the cache artifact
`log/author_profile.json` exists the database is its deserialized content and
the raw database is untouched; otherwise the raw database is processed by the
external `build_author_profile` collaborator (and persisted, which the pure
model does not track). -/
def load_or_build (cache_exists : Bool) (cache_content : List AuthorProfile)
    (raw_database : List RawRecord)
    (build_author_profile : List RawRecord → List AuthorProfile) : List AuthorProfile :=
  if cache_exists then cache_content else build_author_profile raw_database

/-- Python's builtin `round` on the model's exact rationals: round to the
nearest integer, ties to the even integer (banker's rounding, the IEEE-754
default Python uses). -/
def pyRound (q : ℚ) : ℤ :=
  let f := ⌊q⌋
  let r := q - (f : ℚ)
  if r < 1 / 2 then f
  else if 1 / 2 < r then f + 1
  else if f % 2 = 0 then f else f + 1

/-- Minimal model of the string escaping `json.dumps` applies to the
characters relevant here. -/
def json_escape (s : String) : String :=
  s.foldl
    (fun acc c =>
      if c = '"' then acc ++ "\\\""
      else if c = '\\' then acc ++ "\\\\"
      else if c = '\n' then acc ++ "\\n"
      else acc.push c) ""

/-- Models `json.dumps(item)` for one result dict, with the default
`", "` and `": "` separators and insertion-ordered keys. -/
def json_dumps_result (r : Result) : String :=
  "\x7b\"name\": \"" ++ json_escape r.name ++ "\", \"fitness\": " ++ toString r.fitness
    ++ ", \"explanation\": \"" ++ json_escape r.explanation ++ "\"\x7d"

/-- Models `os.path.join` for the non-absolute second component used here. -/
def os_path_join (a b : String) : String :=
  if a = "" then b else if a.endsWith "/" then a ++ b else a ++ "/" ++ b

/-- Fallback author used to totalize `database[author_id]`; the ranking only
ever produces in-range indices, so it is never reached from `main_run`. -/
def emptyProfile : AuthorProfile := { name := "", summary := "", list_of_pubs := [] }

/-- Body of the justification loop (lines 137-145) for one ranked entry:
resolve the author, call the justification collaborator with
`round(score * 100)`, and produce the result record with the unrounded
score in its `fitness` field. -/
def resultOf (gen_just : QueryDict → String → ℤ → String) (database : List AuthorProfile)
    (query_dict : QueryDict) (item : RankedEntry) : Result :=
  let author := database.getD item.corpus_id emptyProfile
  { name := author.name, fitness := item.score,
    explanation := gen_just query_dict author.summary (pyRound (item.score * 100)) }

/-- The justification call issued for one ranked entry (line 140). -/
def callOf (database : List AuthorProfile) (query_dict : QueryDict)
    (item : RankedEntry) : JustCall :=
  let author := database.getD item.corpus_id emptyProfile
  { query := query_dict, summary := author.summary,
    score := pyRound (item.score * 100) }

/-- Embeds the policy-keyed selection of the per-author representation in
`main` (lines 131-132): the `"summary"` field under "summarize", the
`"list_of_pubs"` field otherwise. -/
def authorsInputOf (author_embedding : String) (database : List AuthorProfile) :
    AuthorsInput :=
  if author_embedding = "summarize"
  then AuthorsInput.texts (database.map (fun item => item.summary))
  else AuthorsInput.pubs (database.map (fun item => item.list_of_pubs))

/-- Embeds `main` (lines 102-149) from the point the inputs are in memory:
cache-gated profile load, query composition, policy-keyed selection of the
per-author representation, `compute_fitness`, the sequential justification
loop in rank order, and the write of one JSON line per result to
`os.path.join(output_path, f"output_{author_embedding}.txt")`.  External
collaborators (`embed`, `gen_just`, `build_author_profile`) are function
parameters; an `Except.error` result is a raised exception that aborts the
run before the output file is written; `Except.ok none` is a NaN-poisoned
undefined run. -/
def main_run (embed : String → Vec) (gen_just : QueryDict → String → ℤ → String)
    (build_author_profile : List RawRecord → List AuthorProfile)
    (author_embedding : String) (output_path : String) (query_dict : QueryDict)
    (cache_exists : Bool) (cache_content : List AuthorProfile)
    (raw_database : List RawRecord) : Except String (Option MainOutput) :=
  let database := load_or_build cache_exists cache_content raw_database build_author_profile
  let query := build_query query_dict
  let list_of_authors := authorsInputOf author_embedding database
  match compute_fitness embed query list_of_authors author_embedding with
  | .error e => .error e
  | .ok none => .ok none
  | .ok (some sorted_id_and_scores) =>
    let rc := sorted_id_and_scores.foldl
      (fun (acc : List Result × List JustCall) item =>
        (acc.1 ++ [resultOf gen_just database query_dict item],
         acc.2 ++ [callOf database query_dict item]))
      ([], [])
    .ok (some
      { out_path := os_path_join output_path ("output_" ++ author_embedding ++ ".txt"),
        lines := rc.1.map (fun item => json_dumps_result item ++ "\n"),
        results := rc.1,
        just_calls := rc.2 })

/-- Order of a correct ranking: non-increasing scores, equal scores in
strictly ascending original corpus index. -/
def rankedRel (a b : RankedEntry) : Prop :=
  b.score ≤ a.score ∧ (a.score = b.score → a.corpus_id < b.corpus_id)

/-! Concrete fixtures used by the witness theorems. -/

/-- Degenerate one-dimensional unit embedding provider. -/
def wEmbedOne : String → Vec := fun _ => [1]

/-- First fixture publication. -/
def wPub1 : Publication := { title := "T1", abstract := "X" }

/-- Second fixture publication. -/
def wPub2 : Publication := { title := "T2", abstract := "Y" }

/-- Two-dimensional embedding provider returning distinct unit vectors for
the two fixture publications. -/
def wEmbedCS : String → Vec :=
  fun s => if s = pubText wPub1 then [3 / 5, 4 / 5] else [4 / 5, 3 / 5]

/-- Fixture query record. -/
def wQuery : QueryDict := { title := "t", abstract := "a" }

/-- Fixture cached author-profile database with two authors. -/
def wDatabase : List AuthorProfile :=
  [{ name := "A", summary := "sa", list_of_pubs := [] },
   { name := "B", summary := "sb", list_of_pubs := [] }]

/-- Fixture justification collaborator. -/
def wGenJust : QueryDict → String → ℤ → String := fun _ _ _ => "ok"

/-- Fixture profile builder (never consulted when the cache exists). -/
def wBuild : List RawRecord → List AuthorProfile := fun _ => []

/-- Embedding provider for the C1 counterexample: three unit-norm summary
embeddings with a score tie between authors 0 and 1 against the query. -/
def cEmbed : String → Vec := fun s => if s = "s2" then [0, 1] else [1, 0]

/-- Ranking produced by the fixture run. -/
def wRanking : List RankedEntry :=
  [{ corpus_id := 0, score := 1 }, { corpus_id := 1, score := 1 }]

/-- Observable outcome of the fixture run. -/
def wOut : MainOutput :=
  { out_path := os_path_join "log" ("output_" ++ "summarize" ++ ".txt"),
    lines := (wRanking.map (resultOf wGenJust wDatabase wQuery)).map
      (fun item => json_dumps_result item ++ "\n"),
    results := wRanking.map (resultOf wGenJust wDatabase wQuery),
    just_calls := wRanking.map (callOf wDatabase wQuery) }

/-! Helper lemmas about the prefix-sum slicing of the stacked publication
list, relating the batched "aggregate" corpus to per-author aggregation. -/

/-- Python's `sum(list_of_lists, [])` is the flattening of the list. -/
theorem foldl_append_eq_flatten {α : Type} (ls : List (List α)) :
    ∀ acc : List α, ls.foldl (· ++ ·) acc = acc ++ ls.flatten := by
  induction ls with
  | nil => intro acc; simp
  | cons l t ih => intro acc; simp [List.foldl_cons, ih, List.append_assoc]

/-- Zipping the low boundaries `k :: cumsumFrom k ns.dropLast` with the high
boundaries `cumsumFrom k ns` yields the consecutive boundary pairs. -/
theorem zip_cumsumFrom_eq_pairsFrom :
    ∀ (ns : List ℕ) (k : ℕ),
      (k :: cumsumFrom k ns.dropLast).zip (cumsumFrom k ns) = pairsFrom k ns := by
  intro ns
  induction ns with
  | nil => intro k; simp [cumsumFrom, pairsFrom]
  | cons x xs ih =>
    intro k
    cases xs with
    | nil => simp [cumsumFrom, pairsFrom]
    | cons y ys =>
      have h := ih (k + x)
      simp only [List.dropLast_cons₂, cumsumFrom, pairsFrom, List.zip_cons_cons] at h ⊢
      rw [h]

/-- Taking the boundary-pair slices of `pre ++ ls.flatten`, with boundaries
the prefix sums of the lengths of `ls` offset by the length of `pre`,
recovers exactly the lists of `ls`. -/
theorem pairsFrom_slices {α : Type} :
    ∀ (ls : List (List α)) (pre : List α),
      (pairsFrom pre.length (ls.map List.length)).map
          (fun lh => pySlice (pre ++ ls.flatten) lh.1 lh.2) = ls := by
  intro ls
  induction ls with
  | nil => intro pre; simp [pairsFrom]
  | cons l t ih =>
    intro pre
    simp only [List.map_cons, pairsFrom, List.flatten_cons]
    have hhead : pySlice (pre ++ (l ++ t.flatten)) pre.length (pre.length + l.length) = l := by
      rw [pySlice, List.drop_left' rfl, Nat.add_sub_cancel_left, List.take_left]
    have htail := ih (pre ++ l)
    rw [List.length_append, List.append_assoc] at htail
    rw [hhead, htail]

/-- The prefix-sum boundary pairs of `aggregate_corpus` and `author_slices`
are `pairsFrom 0` of the per-author counts. -/
theorem zip_low_high (ns : List ℕ) :
    (cumsum (0 :: ns.dropLast)).zip (cumsum ns) = pairsFrom 0 ns := by
  have h := zip_cumsumFrom_eq_pairsFrom ns 0
  simpa [cumsum, cumsumFrom] using h

/-- Slicing the concatenated publication list at the prefix-sum boundaries
partitions it back into the per-author publication lists, in author order. -/
theorem author_slices_eq (list_of_authors : List (List Publication)) :
    author_slices list_of_authors = list_of_authors := by
  have h := pairsFrom_slices list_of_authors []
  simp only [List.length_nil, List.nil_append] at h
  simp only [author_slices, foldl_append_eq_flatten, List.nil_append, zip_low_high]
  exact h

/-- Mapping `f` over the flattening and slicing at the boundary pairs of the
original lengths yields the per-list maps of `f`. -/
theorem map_slices_flatten {α β : Type} (f : α → β) (ls : List (List α)) :
    (pairsFrom 0 (ls.map List.length)).map
        (fun lh => pySlice (ls.flatten.map f) lh.1 lh.2) = ls.map (List.map f) := by
  have h := pairsFrom_slices (ls.map (List.map f)) []
  simp only [List.length_nil, List.nil_append] at h
  have hmap : ls.flatten.map f = (ls.map (List.map f)).flatten := List.map_flatten f ls
  have hlen : (ls.map (List.map f)).map List.length = ls.map List.length := by
    simp
  rw [hmap, ← hlen]
  exact h

/-- The batched-and-sliced "aggregate" corpus coincides with embedding each
author's publications independently and averaging. -/
theorem aggregate_corpus_eq (embed : String → Vec)
    (list_of_authors : List (List Publication)) :
    aggregate_corpus embed list_of_authors = per_author_corpus embed list_of_authors := by
  have key := map_slices_flatten (embed ∘ pubText) list_of_authors
  simp only [aggregate_corpus, per_author_corpus, foldl_append_eq_flatten, List.nil_append,
    zip_low_high, List.map_map]
  calc (pairsFrom 0 (list_of_authors.map List.length)).map
        (fun lh => meanOpt (pySlice (list_of_authors.flatten.map (embed ∘ pubText)) lh.1 lh.2))
      = ((pairsFrom 0 (list_of_authors.map List.length)).map
          (fun lh => pySlice (list_of_authors.flatten.map (embed ∘ pubText)) lh.1 lh.2)).map
          meanOpt := by
        rw [List.map_map]
        rfl
    _ = (list_of_authors.map (List.map (embed ∘ pubText))).map meanOpt := by rw [key]
    _ = list_of_authors.map (fun pubs => meanOpt (pubs.map (fun p => embed (pubText p)))) := by
        rw [List.map_map]
        rfl

/-! Helper lemmas about `sequenceOption` (NaN propagation). -/

/-- A defined stacked corpus has one vector per author. -/
theorem sequenceOption_length {α : Type} :
    ∀ (l : List (Option α)) (v : List α), sequenceOption l = some v → v.length = l.length := by
  intro l
  induction l with
  | nil =>
    intro v hv
    simp [sequenceOption] at hv
    simp [← hv]
  | cons o os ih =>
    intro v hv
    cases o with
    | none => simp [sequenceOption] at hv
    | some a =>
      simp only [sequenceOption, Option.map_eq_some'] at hv
      obtain ⟨vs, hvs, hv⟩ := hv
      simp [← hv, ih vs hvs]

/-- One NaN entry poisons the whole stacked corpus. -/
theorem sequenceOption_eq_none {α : Type} :
    ∀ (l : List (Option α)), none ∈ l → sequenceOption l = none := by
  intro l
  induction l with
  | nil => intro h; cases h
  | cons o os ih =>
    intro h
    cases o with
    | none => rfl
    | some a =>
      rcases List.mem_cons.mp h with h1 | h1
      · cases h1
      · simp [sequenceOption, ih h1]

/-- A corpus with no NaN entry is defined. -/
theorem sequenceOption_isSome {α : Type} :
    ∀ (l : List (Option α)), (∀ o ∈ l, o ≠ none) → ∃ v, sequenceOption l = some v := by
  intro l
  induction l with
  | nil => intro _; exact ⟨[], rfl⟩
  | cons o os ih =>
    intro h
    cases o with
    | none => exact absurd rfl (h none (List.mem_cons_self _ _))
    | some a =>
      obtain ⟨vs, hvs⟩ := ih (fun o ho => h o (List.mem_cons_of_mem _ ho))
      exact ⟨a :: vs, by simp [sequenceOption, hvs]⟩

/-- The value list of a defined stacked corpus, entry by entry. -/
theorem sequenceOption_getElem {α : Type} :
    ∀ (l : List (Option α)) (v : List α), sequenceOption l = some v →
      ∀ (i : ℕ) (h : i < v.length) (h2 : i < l.length), l[i] = some v[i] := by
  intro l
  induction l with
  | nil =>
    intro v _ i _ h2
    exact absurd h2 (by simp)
  | cons o os ih =>
    intro v hv i h h2
    cases o with
    | none => simp [sequenceOption] at hv
    | some a =>
      simp only [sequenceOption, Option.map_eq_some'] at hv
      obtain ⟨vs, hvs, hv⟩ := hv
      subst hv
      cases i with
      | zero => rfl
      | succ j =>
        simp only [List.getElem_cons_succ]
        exact ih vs hvs j (by simpa using h) (by simpa using h2)

/-! Helper lemmas about the heap collection loop and the stable descending
sort used by `semantic_search`. -/

/-- Pulling the element at position `j` to the front while writing `x` into
position `j` permutes `x :: t`. -/
theorem get_cons_set_perm {α : Type} :
    ∀ (t : List α) (j : ℕ) (hj : j < t.length) (x : α),
      (t[j] :: t.set j x).Perm (x :: t) := by
  intro t
  induction t with
  | nil =>
    intro j hj
    exact absurd hj (by simp)
  | cons b u ih =>
    intro j hj x
    cases j with
    | zero => simpa using List.Perm.swap x b u
    | succ k =>
      have hk : k < u.length := by simpa using hj
      simp only [List.getElem_cons_succ, List.set_cons_succ]
      exact ((List.Perm.swap b (u[k]) (u.set k x)).trans
        ((ih k hk x).cons b)).trans (List.Perm.swap x b u)

/-- Swapping two positions of a list (written as two `set`s, as the sift
steps do) permutes it. -/
theorem set_set_perm {α : Type} :
    ∀ (l : List α) (i j : ℕ), i < j → ∀ (hi : i < l.length) (hj : j < l.length),
      ((l.set j l[i]).set i l[j]).Perm l := by
  intro l
  induction l with
  | nil =>
    intro i j _ hi
    exact absurd hi (by simp)
  | cons a t ih =>
    intro i j hij hi hj
    cases i with
    | zero =>
      cases j with
      | zero => exact absurd hij (by omega)
      | succ k =>
        have hk : k < t.length := by simpa using hj
        simp only [List.getElem_cons_zero, List.set_cons_succ, List.getElem_cons_succ,
          List.set_cons_zero]
        exact get_cons_set_perm t k hk a
    | succ i2 =>
      cases j with
      | zero => exact absurd hij (by omega)
      | succ k =>
        have hi2 : i2 < t.length := by simpa using hi
        have hk : k < t.length := by simpa using hj
        simp only [List.getElem_cons_succ, List.set_cons_succ]
        exact (ih i2 k (by omega) hi2 hk).cons a

/-- The up-sift of `heappush` only permutes the array. -/
theorem heap_siftdown_perm (startpos pos : ℕ) (heap : List RankedEntry) :
    (heap_siftdown heap startpos pos).Perm heap := by
  induction pos using Nat.strong_induction_on generalizing heap with
  | _ pos ih =>
    unfold heap_siftdown
    split
    next hsp =>
      split
      next item parent h1 h2 =>
        split
        next hlt =>
          obtain ⟨hplt, hpe⟩ := List.getElem?_eq_some_iff.mp h1
          obtain ⟨hqlt, hqe⟩ := List.getElem?_eq_some_iff.mp h2
          have hswap := set_set_perm heap ((pos - 1) / 2) pos (by omega) hqlt hplt
          rw [hqe, hpe] at hswap
          exact (ih _ (by omega) _).trans hswap
        next => exact List.Perm.refl _
      next => exact List.Perm.refl _
    next => exact List.Perm.refl _

/-- `heappush` permutes the pushed item into the heap. -/
theorem heappush_perm (heap : List RankedEntry) (item : RankedEntry) :
    (heappush heap item).Perm (item :: heap) :=
  (heap_siftdown_perm 0 heap.length (heap ++ [item])).trans
    (List.perm_append_singleton item heap)

/-- The descent loop of `heappushpop` only permutes the array. -/
theorem heap_siftup_loop_perm_aux :
    ∀ (m : ℕ) (heap : List RankedEntry) (pos : ℕ), heap.length - pos ≤ m →
      ((heap_siftup_loop heap pos).1).Perm heap := by
  intro m
  induction m with
  | zero =>
    intro heap pos hm
    have hc : heap[pickChild heap (2 * pos + 1)]? = none := by
      apply List.getElem?_eq_none
      have h4 : 2 * pos + 1 ≤ pickChild heap (2 * pos + 1) := by
        unfold pickChild
        split
        · split <;> omega
        · omega
      omega
    unfold heap_siftup_loop
    split
    next item child h1 h2 =>
      rw [hc] at h2
      exact absurd h2 (by simp)
    next => exact List.Perm.refl _
  | succ m ih =>
    intro heap pos hm
    unfold heap_siftup_loop
    split
    next item child h1 h2 =>
      obtain ⟨hplt, hpe⟩ := List.getElem?_eq_some_iff.mp h1
      obtain ⟨hclt, hce⟩ := List.getElem?_eq_some_iff.mp h2
      have h4 : 2 * pos + 1 ≤ pickChild heap (2 * pos + 1) := by
        unfold pickChild
        split
        · split <;> omega
        · omega
      have hswap := set_set_perm heap pos (pickChild heap (2 * pos + 1)) (by omega) hplt hclt
      rw [hpe, hce] at hswap
      rw [List.set_comm item child heap (by omega)] at hswap
      refine (ih _ _ ?_).trans hswap
      simp only [List.length_set]
      omega
    next => exact List.Perm.refl _

/-- The root-replacing sift of `heappushpop` only permutes the array. -/
theorem heap_siftup_perm (heap : List RankedEntry) (pos : ℕ) :
    (heap_siftup heap pos).Perm heap := by
  unfold heap_siftup
  exact (heap_siftdown_perm _ _ _).trans
    (heap_siftup_loop_perm_aux (heap.length - pos) heap pos (le_refl _))

/-- Everything in a push-popped heap was in the heap or is the new item. -/
theorem mem_heappushpop (heap : List RankedEntry) (item x : RankedEntry)
    (hx : x ∈ heappushpop heap item) : x ∈ heap ∨ x = item := by
  unfold heappushpop at hx
  split at hx
  next root hroot =>
    split at hx
    next hlt =>
      have hx2 : x ∈ heap.set 0 item := (heap_siftup_perm (heap.set 0 item) 0).mem_iff.mp hx
      exact List.mem_or_eq_of_mem_set hx2
    next => exact Or.inl hx
  next => exact Or.inl hx

/-- While the `top_k` cap is not reached, the collection loop accumulates
exactly the pushed entries, up to permutation. -/
theorem foldl_heapInsert_perm :
    ∀ (entries heap : List RankedEntry) (top_k : ℕ),
      heap.length + entries.length ≤ top_k →
      (entries.foldl (heapInsert top_k) heap).Perm (heap ++ entries) := by
  intro entries
  induction entries with
  | nil =>
    intro heap top_k _
    simp
  | cons e t ih =>
    intro heap top_k hle
    rw [List.foldl_cons]
    have hlt : heap.length < top_k := by
      simp only [List.length_cons] at hle
      omega
    rw [heapInsert, if_pos hlt]
    have hp := heappush_perm heap e
    have hplen : (heappush heap e).length = heap.length + 1 := by
      rw [hp.length_eq]
      simp
    have hrest := ih (heappush heap e) top_k
      (by simp only [List.length_cons] at hle; omega)
    exact hrest.trans ((hp.append_right t).trans List.perm_middle.symm)

/-- Everything the collection loop returns was an initial heap element or a
pushed entry (with or without the cap). -/
theorem mem_foldl_heapInsert :
    ∀ (entries heap : List RankedEntry) (top_k : ℕ) (x : RankedEntry),
      x ∈ entries.foldl (heapInsert top_k) heap → x ∈ heap ∨ x ∈ entries := by
  intro entries
  induction entries with
  | nil =>
    intro heap top_k x hx
    rw [List.foldl_nil] at hx
    exact Or.inl hx
  | cons e t ih =>
    intro heap top_k x hx
    rw [List.foldl_cons] at hx
    rcases ih _ _ _ hx with h | h
    · unfold heapInsert at h
      split at h
      next =>
        rcases List.mem_cons.mp ((heappush_perm heap e).mem_iff.mp h) with h2 | h2
        · exact Or.inr (by rw [h2]; exact List.mem_cons_self e t)
        · exact Or.inl h2
      next =>
        rcases mem_heappushpop heap e x h with h2 | h2
        · exact Or.inl h2
        · exact Or.inr (by rw [h2]; exact List.mem_cons_self e t)
    · exact Or.inr (List.mem_cons_of_mem e h)

/-- The index-ordered score list has one entry per corpus vector. -/
theorem scoreEntries_length (qe : Vec) (corpus : List Vec) :
    (scoreEntries qe corpus).length = corpus.length := by
  simp [scoreEntries]

/-- Membership characterization of the index-ordered score list. -/
theorem mem_scoreEntries (qe : Vec) (corpus : List Vec) (e : RankedEntry)
    (he : e ∈ scoreEntries qe corpus) :
    e.corpus_id < corpus.length ∧ e.score = dot qe (corpus.getD e.corpus_id []) := by
  simp only [scoreEntries, List.mem_map, List.mem_range] at he
  obtain ⟨i, hi, hie⟩ := he
  subst hie
  exact ⟨hi, rfl⟩

/-- With `top_k` the corpus size, the cap is never reached and the search
result is a permutation of the score entries. -/
theorem semantic_search_perm (qe : Vec) (corpus : List Vec) :
    (semantic_search qe corpus corpus.length).Perm (scoreEntries qe corpus) := by
  unfold semantic_search
  refine (List.perm_insertionSort searchRel _).trans ?_
  have h := foldl_heapInsert_perm (scoreEntries qe corpus) [] corpus.length
    (by simp [scoreEntries_length])
  simpa using h

/-- The full search result has exactly one entry per corpus vector. -/
theorem semantic_search_length (qe : Vec) (corpus : List Vec) :
    (semantic_search qe corpus corpus.length).length = corpus.length := by
  rw [(semantic_search_perm qe corpus).length_eq, scoreEntries_length]

/-- The corpus indices of the full search result are a permutation of
`0..n-1`. -/
theorem semantic_search_ids_perm (qe : Vec) (corpus : List Vec) :
    ((semantic_search qe corpus corpus.length).map RankedEntry.corpus_id).Perm
      (List.range corpus.length) := by
  have hperm := (semantic_search_perm qe corpus).map RankedEntry.corpus_id
  have hids : (scoreEntries qe corpus).map RankedEntry.corpus_id
      = List.range corpus.length := by
    unfold scoreEntries
    rw [List.map_map]
    exact List.map_id _
  rw [hids] at hperm
  exact hperm

/-- Any search result is ordered by non-increasing score (the final stable
sort guarantees this whatever order the heap array holds). -/
theorem semantic_search_sorted (qe : Vec) (corpus : List Vec) (top_k : ℕ) :
    List.Pairwise (fun a b => b.score ≤ a.score) (semantic_search qe corpus top_k) :=
  List.sorted_insertionSort searchRel _

/-- Every returned entry carries the dot-product score of its corpus
vector. -/
theorem mem_semantic_search (qe : Vec) (corpus : List Vec) (top_k : ℕ) (e : RankedEntry)
    (he : e ∈ semantic_search qe corpus top_k) :
    e.corpus_id < corpus.length ∧ e.score = dot qe (corpus.getD e.corpus_id []) := by
  have h1 : e ∈ (scoreEntries qe corpus).foldl (heapInsert top_k) [] :=
    (List.perm_insertionSort searchRel _).mem_iff.mp he
  rcases mem_foldl_heapInsert (scoreEntries qe corpus) [] top_k e h1 with h | h
  · exact absurd h (by simp)
  · exact mem_scoreEntries qe corpus e h

/-! Cauchy-Schwarz for the dot product, giving the cosine bounds. -/

/-- Squared norms are nonnegative. -/
theorem dot_self_nonneg : ∀ v : Vec, 0 ≤ dot v v := by
  intro v
  induction v with
  | nil => simp [dot]
  | cons a u ih =>
    simp only [dot, List.zipWith_cons_cons, List.sum_cons] at ih ⊢
    nlinarith [sq_nonneg a]

/-- Arithmetic fact: a nonnegative number dominates anything whose square it
square-dominates. -/
theorem rat_le_of_sq_le_sq (x s : ℚ) (hs : 0 ≤ s) (h : x ^ 2 ≤ s ^ 2) : x ≤ s := by
  nlinarith [h, hs]

/-- One induction step of Cauchy-Schwarz. -/
theorem cs_step (a b d u v : ℚ) (hu : 0 ≤ u) (hv : 0 ≤ v) (h : d ^ 2 ≤ u * v) :
    (a * b + d) ^ 2 ≤ (a * a + u) * (b * b + v) := by
  have hs : (0 : ℚ) ≤ a ^ 2 * v + b ^ 2 * u := by positivity
  have hsq : (2 * (a * b) * d) ^ 2 ≤ (a ^ 2 * v + b ^ 2 * u) ^ 2 := by
    nlinarith [h, sq_nonneg (a * b), sq_nonneg (a ^ 2 * v - b ^ 2 * u)]
  have key := rat_le_of_sq_le_sq (2 * (a * b) * d) (a ^ 2 * v + b ^ 2 * u) hs hsq
  nlinarith [key, h]

/-- Cauchy-Schwarz inequality for the truncating dot product. -/
theorem dot_sq_le : ∀ (u v : Vec), (dot u v) ^ 2 ≤ dot u u * dot v v := by
  intro u
  induction u with
  | nil =>
    intro v
    simp [dot]
  | cons a u ih =>
    intro v
    cases v with
    | nil =>
      simp only [dot, List.zipWith_nil_right, List.sum_nil]
      nlinarith [dot_self_nonneg (a :: u)]
    | cons b w =>
      have h := ih w
      have hu := dot_self_nonneg u
      have hw := dot_self_nonneg w
      simp only [dot, List.zipWith_cons_cons, List.sum_cons] at h hu hw ⊢
      exact cs_step a b _ _ _ hu hw h

/-- The dot product of two unit-norm vectors lies in the interval
`[-1, 1]`. -/
theorem dot_unit_bounds (u v : Vec) (hu : dot u u = 1) (hv : dot v v = 1) :
    -1 ≤ dot u v ∧ dot u v ≤ 1 := by
  have h := dot_sq_le u v
  rw [hu, hv] at h
  constructor
  · nlinarith [h]
  · nlinarith [h]

/-! Helper lemmas unfolding the branches of `compute_fitness` and the
justification loop of `main_run`. -/

/-- The "summarize" branch of `compute_fitness`. -/
theorem compute_fitness_summarize (embed : String → Vec) (query : String)
    (l : List String) :
    compute_fitness embed query (.texts l) "summarize"
      = .ok (some (semantic_search (embed query) (l.map embed) l.length)) := by
  rfl

/-- The "aggregate" branch of `compute_fitness` on a NaN-free corpus. -/
theorem compute_fitness_aggregate_some (embed : String → Vec) (query : String)
    (lists : List (List Publication)) (corpus : List Vec)
    (hseq : sequenceOption (aggregate_corpus embed lists) = some corpus) :
    compute_fitness embed query (.pubs lists) "aggregate"
      = .ok (some (semantic_search (embed query) corpus lists.length)) := by
  unfold compute_fitness
  rw [if_pos rfl]
  simp only [hseq]

/-- The "aggregate" branch of `compute_fitness` on a NaN-poisoned corpus. -/
theorem compute_fitness_aggregate_none (embed : String → Vec) (query : String)
    (lists : List (List Publication))
    (hseq : sequenceOption (aggregate_corpus embed lists) = none) :
    compute_fitness embed query (.pubs lists) "aggregate" = .ok none := by
  unfold compute_fitness
  rw [if_pos rfl]
  simp only [hseq]

/-- An unknown aggregation policy reaches the `else` branch of
`compute_fitness` and raises, whatever the argument shape. -/
theorem compute_fitness_unknown (embed : String → Vec) (query : String)
    (list_of_authors : AuthorsInput) (policy : String)
    (h1 : policy ≠ "aggregate") (h2 : policy ≠ "summarize") :
    compute_fitness embed query list_of_authors policy
      = .error ("Author Embedding:" ++ policy ++ " method not implemented") := by
  unfold compute_fitness
  rw [if_neg h1, if_neg h2]

/-- The accumulating justification loop is the pair of maps of the per-entry
result and call, in rank order. -/
theorem foldl_results_calls (gen_just : QueryDict → String → ℤ → String)
    (database : List AuthorProfile) (query_dict : QueryDict) :
    ∀ (l : List RankedEntry) (r0 : List Result) (c0 : List JustCall),
      l.foldl
        (fun (acc : List Result × List JustCall) item =>
          (acc.1 ++ [resultOf gen_just database query_dict item],
           acc.2 ++ [callOf database query_dict item]))
        (r0, c0)
      = (r0 ++ l.map (resultOf gen_just database query_dict),
         c0 ++ l.map (callOf database query_dict)) := by
  intro l
  induction l with
  | nil => intro r0 c0; simp
  | cons x t ih =>
    intro r0 c0
    rw [List.foldl_cons, List.map_cons, List.map_cons, ih]
    simp

/-- Reading a mapped list at an in-range index with a default reads the
original list with a default. -/
theorem getD_map {α β : Type} (f : α → β) (l : List α) (i : ℕ) (d : β) (d0 : α)
    (h : i < l.length) : (l.map f).getD i d = f (l.getD i d0) := by
  rw [List.getD_eq_getElem _ _ (by simpa using h), List.getD_eq_getElem _ _ h]
  simp

/-- The in-range default read is a member of the list. -/
theorem getD_mem {α : Type} (l : List α) (i : ℕ) (d : α) (h : i < l.length) :
    l.getD i d ∈ l := by
  rw [List.getD_eq_getElem _ _ h]
  exact List.getElem_mem h

/-- The two aggregation policies write to distinct output paths for every
output directory. -/
theorem out_path_ne (output_path : String) :
    os_path_join output_path "output_aggregate.txt"
      ≠ os_path_join output_path "output_summarize.txt" := by
  have hne : ("output_aggregate.txt" : String).data ≠ ("output_summarize.txt" : String).data := by
    decide
  unfold os_path_join
  by_cases h1 : output_path = ""
  · rw [if_pos h1, if_pos h1]
    intro h
    exact hne (congrArg String.data h)
  · rw [if_neg h1, if_neg h1]
    by_cases h2 : output_path.endsWith "/"
    · rw [if_pos h2, if_pos h2]
      intro h
      have h3 := congrArg String.data h
      rw [String.data_append, String.data_append] at h3
      exact hne (List.append_cancel_left h3)
    · rw [if_neg h2, if_neg h2]
      intro h
      have h3 := congrArg String.data h
      rw [String.data_append, String.data_append] at h3
      exact hne (List.append_cancel_left h3)

/-- A successful run is fully determined by the ranking: the observable
outcome maps every ranked entry, in rank order, to its result record, its
output line and its justification call. -/
theorem main_run_ok (embed : String → Vec) (gen_just : QueryDict → String → ℤ → String)
    (build_author_profile : List RawRecord → List AuthorProfile)
    (author_embedding : String) (output_path : String) (query_dict : QueryDict)
    (cache_exists : Bool) (cache_content : List AuthorProfile)
    (raw_database : List RawRecord) (r : List RankedEntry)
    (hr : compute_fitness embed (build_query query_dict)
        (authorsInputOf author_embedding
          (load_or_build cache_exists cache_content raw_database build_author_profile))
        author_embedding = .ok (some r)) :
    main_run embed gen_just build_author_profile author_embedding output_path query_dict
        cache_exists cache_content raw_database
      = .ok (some
        { out_path := os_path_join output_path ("output_" ++ author_embedding ++ ".txt"),
          lines := (r.map (resultOf gen_just
              (load_or_build cache_exists cache_content raw_database build_author_profile)
              query_dict)).map (fun item => json_dumps_result item ++ "\n"),
          results := r.map (resultOf gen_just
            (load_or_build cache_exists cache_content raw_database build_author_profile)
            query_dict),
          just_calls := r.map (callOf
            (load_or_build cache_exists cache_content raw_database build_author_profile)
            query_dict) }) := by
  unfold main_run
  simp only [hr, foldl_results_calls, List.nil_append]

/-- A raised `compute_fitness` exception propagates: the run aborts with the
same error and no output is produced. -/
theorem main_run_error (embed : String → Vec) (gen_just : QueryDict → String → ℤ → String)
    (build_author_profile : List RawRecord → List AuthorProfile)
    (author_embedding : String) (output_path : String) (query_dict : QueryDict)
    (cache_exists : Bool) (cache_content : List AuthorProfile)
    (raw_database : List RawRecord) (e : String)
    (hr : compute_fitness embed (build_query query_dict)
        (authorsInputOf author_embedding
          (load_or_build cache_exists cache_content raw_database build_author_profile))
        author_embedding = .error e) :
    main_run embed gen_just build_author_profile author_embedding output_path query_dict
        cache_exists cache_content raw_database = .error e := by
  unfold main_run
  simp only [hr]

/-- The aggregate corpus has one (possibly NaN) vector per author. -/
theorem aggregate_corpus_length (embed : String → Vec)
    (lists : List (List Publication)) :
    (aggregate_corpus embed lists).length = lists.length := by
  rw [aggregate_corpus_eq]
  simp [per_author_corpus]

/-- The policy-keyed selection always yields one entry per database
author. -/
theorem authorsInputOf_numAuthors (author_embedding : String)
    (database : List AuthorProfile) :
    (authorsInputOf author_embedding database).numAuthors = database.length := by
  unfold authorsInputOf
  by_cases h : author_embedding = "summarize"
  · rw [if_pos h]; simp [AuthorsInput.numAuthors]
  · rw [if_neg h]; simp [AuthorsInput.numAuthors]

/-- A defined search result has exactly one ranked entry per author. -/
theorem compute_fitness_ok_length (embed : String → Vec) (query : String)
    (list_of_authors : AuthorsInput) (policy : String) (r : List RankedEntry)
    (hr : compute_fitness embed query list_of_authors policy = .ok (some r)) :
    r.length = list_of_authors.numAuthors := by
  by_cases h1 : policy = "aggregate"
  · subst h1
    cases list_of_authors with
    | texts l => simp [compute_fitness] at hr
    | pubs lists =>
      cases hseq : sequenceOption (aggregate_corpus embed lists) with
      | none => rw [compute_fitness_aggregate_none embed query lists hseq] at hr; simp at hr
      | some corpus =>
        rw [compute_fitness_aggregate_some embed query lists corpus hseq] at hr
        have hcl : corpus.length = lists.length := by
          rw [sequenceOption_length _ _ hseq, aggregate_corpus_length]
        obtain ⟨rfl⟩ : semantic_search (embed query) corpus lists.length = r := by
          simpa using hr
        rw [← hcl, semantic_search_length]
        simpa [AuthorsInput.numAuthors] using hcl
  · by_cases h2 : policy = "summarize"
    · subst h2
      cases list_of_authors with
      | pubs lists => simp [compute_fitness] at hr
      | texts l =>
        rw [compute_fitness_summarize] at hr
        obtain ⟨rfl⟩ : semantic_search (embed query) (l.map embed) l.length = r := by
          simpa using hr
        have hcl : (l.map embed).length = l.length := List.length_map l embed
        rw [← hcl, semantic_search_length]
        simp [AuthorsInput.numAuthors]
    · rw [compute_fitness_unknown embed query list_of_authors policy h1 h2] at hr
      simp at hr

/-! Concrete evaluations of the fixture searches, used by the witness and
counterexample proofs. -/

/-- Under the constant unit provider every two-author pool scores `1, 1`;
the heap keeps the push order and the stable sort preserves the tie. -/
theorem wOneSearch_eval (q : String) (l : List String) (h : l.length = 2) :
    semantic_search (wEmbedOne q) (l.map wEmbedOne) l.length = wRanking := by
  obtain ⟨a, b, rfl⟩ : ∃ a b, l = [a, b] := by
    cases l with
    | nil => simp at h
    | cons a t =>
      cases t with
      | nil => simp at h
      | cons b u =>
        cases u with
        | nil => exact ⟨a, b, rfl⟩
        | cons c v => simp at h
  have hc : [a, b].map wEmbedOne = [[1], [1]] := by
    simp [wEmbedOne]
  have hq : wEmbedOne q = [1] := rfl
  have hE : scoreEntries (wEmbedOne q) ([a, b].map wEmbedOne)
      = [{ corpus_id := 0, score := 1 }, { corpus_id := 1, score := 1 }] := by
    rw [hq, hc]
    simp [scoreEntries, List.range_succ]
    norm_num [dot]
  show List.insertionSort searchRel
      ((scoreEntries (wEmbedOne q) ([a, b].map wEmbedOne)).foldl
        (heapInsert ([a, b] : List String).length) [])
    = wRanking
  rw [show ([a, b] : List String).length = 2 from rfl, hE]
  have p1 : heapInsert 2 [] { corpus_id := 0, score := 1 }
      = [{ corpus_id := 0, score := 1 }] := by
    rw [heapInsert, if_pos (by norm_num), heappush, heap_siftdown.eq_def]
    norm_num
  have p2 : heapInsert 2 [{ corpus_id := 0, score := 1 }] { corpus_id := 1, score := 1 }
      = [{ corpus_id := 0, score := 1 }, { corpus_id := 1, score := 1 }] := by
    rw [heapInsert, if_pos (by norm_num), heappush, heap_siftdown.eq_def]
    norm_num [heapLt]
  rw [List.foldl_cons, p1, List.foldl_cons, p2, List.foldl_nil]
  norm_num [searchRel, wRanking]

/-- The fixture `compute_fitness` run under "summarize". -/
theorem wCompute_eval :
    compute_fitness wEmbedOne "q" (.texts ["a", "b"]) "summarize" = .ok (some wRanking) := by
  rw [compute_fitness_summarize, wOneSearch_eval "q" ["a", "b"] rfl]

/-- The fixture `compute_fitness` run as invoked from `main_run`. -/
theorem wComputeMain_eval :
    compute_fitness wEmbedOne (build_query wQuery)
        (authorsInputOf "summarize" (load_or_build true wDatabase [] wBuild)) "summarize"
      = .ok (some wRanking) := by
  have h1 : authorsInputOf "summarize" (load_or_build true wDatabase [] wBuild)
      = AuthorsInput.texts ["sa", "sb"] := by
    simp [authorsInputOf, load_or_build, wDatabase]
  rw [h1, compute_fitness_summarize, wOneSearch_eval (build_query wQuery) ["sa", "sb"] rfl]

/-- The counterexample search: authors 0 and 1 tie at score 1; the heap
array ends up `[(2,0), (1,1), (0,1)]` and the stable sort returns corpus 1
before corpus 0. -/
theorem cSearch_eval :
    semantic_search (cEmbed "q") (["s0", "s1", "s2"].map cEmbed)
        (["s0", "s1", "s2"] : List String).length
      = [{ corpus_id := 1, score := 1 }, { corpus_id := 0, score := 1 },
         { corpus_id := 2, score := 0 }] := by
  have hq : cEmbed "q" = [1, 0] := by
    simp [cEmbed]
  have hc : ["s0", "s1", "s2"].map cEmbed = [[1, 0], [1, 0], [0, 1]] := by
    simp [cEmbed]
  have hE : scoreEntries (cEmbed "q") (["s0", "s1", "s2"].map cEmbed)
      = [{ corpus_id := 0, score := 1 }, { corpus_id := 1, score := 1 },
         { corpus_id := 2, score := 0 }] := by
    rw [hq, hc]
    simp [scoreEntries, List.range_succ]
    norm_num [dot]
  show List.insertionSort searchRel
      ((scoreEntries (cEmbed "q") (["s0", "s1", "s2"].map cEmbed)).foldl
        (heapInsert (["s0", "s1", "s2"] : List String).length) [])
    = _
  rw [show (["s0", "s1", "s2"] : List String).length = 3 from rfl, hE]
  have p1 : heapInsert 3 [] { corpus_id := 0, score := 1 }
      = [{ corpus_id := 0, score := 1 }] := by
    rw [heapInsert, if_pos (by norm_num), heappush, heap_siftdown.eq_def]
    norm_num
  have p2 : heapInsert 3 [{ corpus_id := 0, score := 1 }] { corpus_id := 1, score := 1 }
      = [{ corpus_id := 0, score := 1 }, { corpus_id := 1, score := 1 }] := by
    rw [heapInsert, if_pos (by norm_num), heappush, heap_siftdown.eq_def]
    norm_num [heapLt]
  have p3 : heapInsert 3
        [{ corpus_id := 0, score := 1 }, { corpus_id := 1, score := 1 }]
        { corpus_id := 2, score := 0 }
      = [{ corpus_id := 2, score := 0 }, { corpus_id := 1, score := 1 },
         { corpus_id := 0, score := 1 }] := by
    rw [heapInsert, if_pos (by norm_num), heappush, heap_siftdown.eq_def]
    norm_num [heapLt]
    rw [heap_siftdown.eq_def]
    norm_num
  rw [List.foldl_cons, p1, List.foldl_cons, p2, List.foldl_cons, p3, List.foldl_nil]
  norm_num [searchRel]

/-! Claim theorems. -/

/-- C3: Under the "aggregate" policy, concatenating all authors'
publications, embedding them in one batch, and slicing at prefix-sum
boundaries of the per-author publication counts yields for each author
exactly the aggregate obtained by embedding that author's publications
independently and averaging; and the prefix-sum slices partition the
concatenated list contiguously in author order (slicing recovers the
original per-author lists). -/
theorem C3_batching_refinement (embed : String → Vec)
    (lists : List (List Publication)) :
    author_slices lists = lists ∧
    aggregate_corpus embed lists = per_author_corpus embed lists :=
  ⟨author_slices_eq lists, aggregate_corpus_eq embed lists⟩

/-- C2: Under the "aggregate" policy, every author with a nonempty
publication list contributes to the similarity computation exactly the
arithmetic mean of its individual publication embeddings, with no
re-normalization after averaging; moreover (fixture part) an author whose
publication embeddings are all unit-norm can contribute a mean vector whose
squared norm is not 1, so the contributed vector need not be unit-norm. -/
theorem C2_aggregate_mean_no_renormalization :
    (∀ (embed : String → Vec) (lists : List (List Publication)) (i : ℕ),
        lists.getD i [] ≠ [] →
        (aggregate_corpus embed lists).getD i none
          = some (vmean ((lists.getD i []).map (fun p => embed (pubText p))))) ∧
    ((∀ p ∈ [wPub1, wPub2], normSq (wEmbedCS (pubText p)) = 1) ∧
      (aggregate_corpus wEmbedCS [[wPub1, wPub2]]).getD 0 none
        = some [7 / 10, 7 / 10] ∧
      normSq [7 / 10, 7 / 10] ≠ 1) := by
  constructor
  · intro embed lists i hne
    have hlen : i < lists.length := by
      by_contra hge
      push_neg at hge
      rw [List.getD_eq_getElem?_getD, List.getElem?_eq_none hge] at hne
      exact hne rfl
    rw [aggregate_corpus_eq, per_author_corpus,
      getD_map (fun pubs => meanOpt (pubs.map (fun p => embed (pubText p)))) lists i none []
        hlen]
    cases hx : lists.getD i [] with
    | nil => exact absurd hx hne
    | cons p ps => simp [meanOpt]
  · refine ⟨?_, ?_, ?_⟩
    · intro p hp
      rcases List.mem_cons.mp hp with h | h
      · subst h
        norm_num [wEmbedCS, normSq, dot]
      · rcases List.mem_cons.mp h with h2 | h2
        · subst h2
          have hne2 : pubText wPub2 ≠ pubText wPub1 := by
            simp [pubText, wPub1, wPub2]
          rw [wEmbedCS, if_neg hne2]
          norm_num [normSq, dot]
        · cases h2
    · simp [aggregate_corpus, wEmbedCS, cumsum, cumsumFrom, pySlice, meanOpt, vmean, vscale,
        vsum, vadd, wPub1, wPub2, pubText]
      norm_num
    · norm_num [normSq, dot]

/-- Witness for C2 at the fixture input: the first author's contributed
vector is the arithmetic mean of its two publication embeddings. -/
theorem C2_witness :
    (aggregate_corpus wEmbedCS [[wPub1, wPub2]]).getD 0 none
      = some (vmean (([wPub1, wPub2] : List Publication).map
          (fun p => wEmbedCS (pubText p)))) := by
  have h := C2_aggregate_mean_no_renormalization.1 wEmbedCS [[wPub1, wPub2]] 0 (by simp)
  simpa using h

/-- C5: If the cache artifact exists, the author-profile load returns
exactly the deserialized cache content, and the whole run outcome is
independent of the raw database: two runs with the same existing cache and
arbitrarily different raw databases behave identically (the raw database is
never consulted). -/
theorem C5_cache_by_presence (embed : String → Vec)
    (gen_just : QueryDict → String → ℤ → String)
    (build_author_profile : List RawRecord → List AuthorProfile)
    (author_embedding : String) (output_path : String) (query_dict : QueryDict)
    (cache_content : List AuthorProfile) :
    (∀ (raw : List RawRecord) (build2 : List RawRecord → List AuthorProfile),
        load_or_build true cache_content raw build2 = cache_content) ∧
    (∀ raw1 raw2 : List RawRecord,
        main_run embed gen_just build_author_profile author_embedding output_path
            query_dict true cache_content raw1
          = main_run embed gen_just build_author_profile author_embedding output_path
            query_dict true cache_content raw2) := by
  constructor
  · intro raw build2
    rfl
  · intro raw1 raw2
    simp [main_run, load_or_build]

/-- C9: The query builder is a pure total function returning exactly
`"Title: " ++ title ++ "\nAbstract: " ++ abstract`, and it is deterministic:
records with equal fields produce identical output. -/
theorem C9_build_query_pure (q : QueryDict) :
    build_query q = "Title: " ++ q.title ++ "\nAbstract: " ++ q.abstract ∧
    ∀ q2 : QueryDict, q.title = q2.title → q.abstract = q2.abstract →
      build_query q = build_query q2 := by
  refine ⟨rfl, ?_⟩
  intro q2 h1 h2
  unfold build_query
  rw [h1, h2]

/-- Witness for C9 at the fixture query. -/
theorem C9_witness :
    build_query wQuery = "Title: " ++ wQuery.title ++ "\nAbstract: " ++ wQuery.abstract ∧
    build_query wQuery = build_query wQuery :=
  ⟨(C9_build_query_pure wQuery).1, (C9_build_query_pure wQuery).2 wQuery rfl rfl⟩

/-- C10: Under the "aggregate" policy an author with an empty publication
list contributes the mean of an empty slice of the embedding matrix, which
is NaN (not a well-defined vector), so the similarity scores and the
resulting ranking are undefined rather than an error being raised; the
search result is well defined whenever every author has at least one
publication. -/
theorem C10_empty_publications_undefined :
    (∀ (embed : String → Vec) (lists : List (List Publication)) (i : ℕ),
        i < lists.length → lists.getD i [] = [] →
        (aggregate_corpus embed lists)[i]? = some none) ∧
    (∀ (embed : String → Vec) (query : String) (lists : List (List Publication)) (i : ℕ),
        i < lists.length → lists.getD i [] = [] →
        compute_fitness embed query (.pubs lists) "aggregate" = .ok none) ∧
    (∀ (embed : String → Vec) (query : String) (lists : List (List Publication)),
        (∀ pubs ∈ lists, pubs ≠ []) →
        ∃ r, compute_fitness embed query (.pubs lists) "aggregate" = .ok (some r)) := by
  have part1 : ∀ (embed : String → Vec) (lists : List (List Publication)) (i : ℕ),
      i < lists.length → lists.getD i [] = [] →
      (aggregate_corpus embed lists)[i]? = some none := by
    intro embed lists i hlt hempty
    rw [aggregate_corpus_eq, per_author_corpus, List.getElem?_map,
      List.getElem?_eq_getElem hlt]
    have hnil : lists[i] = [] := by
      rw [List.getD_eq_getElem?_getD, List.getElem?_eq_getElem hlt] at hempty
      simpa using hempty
    simp [hnil, meanOpt]
  refine ⟨part1, ?_, ?_⟩
  · intro embed query lists i hlt hempty
    apply compute_fitness_aggregate_none
    apply sequenceOption_eq_none
    exact List.getElem?_mem (part1 embed lists i hlt hempty)
  · intro embed query lists hall
    have hnn : ∀ o ∈ aggregate_corpus embed lists, o ≠ none := by
      intro o ho
      rw [aggregate_corpus_eq, per_author_corpus] at ho
      obtain ⟨pubs, hpubs, rfl⟩ := List.mem_map.mp ho
      have hne := hall pubs hpubs
      cases pubs with
      | nil => exact absurd rfl hne
      | cons p ps => simp [meanOpt]
    obtain ⟨corpus, hc⟩ := sequenceOption_isSome _ hnn
    exact ⟨_, compute_fitness_aggregate_some embed query lists corpus hc⟩

/-- Witness for C10: with the second author having no publications the
search result is undefined (`ok none`), not an error. -/
theorem C10_witness :
    compute_fitness wEmbedOne "q" (.pubs [[wPub1], []]) "aggregate" = .ok none :=
  C10_empty_publications_undefined.2.1 wEmbedOne "q" [[wPub1], []] 1 (by simp) (by simp)

/-- C1 (amended): For every query and every non-empty author pool, a ranking
returned by `compute_fitness` under either implemented policy is a
permutation of all author indices `0..n-1` (each exactly once), ordered by
non-increasing score; `compute_fitness` is a function of its inputs, so the
ranking is deterministic.  The original claim additionally required
equal-score entries to appear in ascending original author-index order: that
is false of the program — the stable final sort receives the entries in
heap-array order, not index order — see `C1_counterexample`. -/
theorem C1_ranking_permutation_sorted (embed : String → Vec) (query : String)
    (list_of_authors : AuthorsInput) (policy : String) (r : List RankedEntry)
    (hpol : policy = "aggregate" ∨ policy = "summarize")
    (_hpool : 0 < list_of_authors.numAuthors)
    (hr : compute_fitness embed query list_of_authors policy = .ok (some r)) :
    (r.map RankedEntry.corpus_id).Perm (List.range list_of_authors.numAuthors) ∧
    List.Pairwise (fun a b => b.score ≤ a.score) r := by
  rcases hpol with hpol | hpol
  · subst hpol
    cases list_of_authors with
    | texts l => simp [compute_fitness] at hr
    | pubs lists =>
      cases hseq : sequenceOption (aggregate_corpus embed lists) with
      | none =>
        rw [compute_fitness_aggregate_none embed query lists hseq] at hr
        simp at hr
      | some corpus =>
        rw [compute_fitness_aggregate_some embed query lists corpus hseq] at hr
        have hcl : corpus.length = lists.length := by
          rw [sequenceOption_length _ _ hseq, aggregate_corpus_length]
        obtain ⟨rfl⟩ : semantic_search (embed query) corpus lists.length = r := by
          simpa using hr
        constructor
        · have h := semantic_search_ids_perm (embed query) corpus
          rw [hcl] at h
          simpa [AuthorsInput.numAuthors] using h
        · exact semantic_search_sorted (embed query) corpus lists.length
  · subst hpol
    cases list_of_authors with
    | pubs lists => simp [compute_fitness] at hr
    | texts l =>
      rw [compute_fitness_summarize] at hr
      obtain ⟨rfl⟩ : semantic_search (embed query) (l.map embed) l.length = r := by
        simpa using hr
      have hcl : (l.map embed).length = l.length := List.length_map l embed
      constructor
      · have h := semantic_search_ids_perm (embed query) (l.map embed)
        rw [hcl] at h
        simpa [AuthorsInput.numAuthors] using h
      · exact semantic_search_sorted (embed query) (l.map embed) l.length

/-- Witness for C1 at the fixture pool of two authors with equal scores. -/
theorem C1_witness :
    ((wRanking.map RankedEntry.corpus_id).Perm
        (List.range (AuthorsInput.texts ["a", "b"]).numAuthors)) ∧
    List.Pairwise (fun a b => b.score ≤ a.score) wRanking :=
  C1_ranking_permutation_sorted wEmbedOne "q" (.texts ["a", "b"]) "summarize" wRanking
    (Or.inr rfl) (by simp [AuthorsInput.numAuthors])
    wCompute_eval

/-- Counterexample to C1 as originally stated: three authors with unit-norm
summary embeddings and scores `1, 1, 0` (so `cos_sim` is exactly the modelled
dot product).  The heap pushes leave the array in the order
`[(2,0), (1,1), (0,1)]`, and the stable descending sort returns corpus index
1 before corpus index 0 — the equal-score entries are not in ascending
original author-index order. -/
theorem C1_counterexample :
    compute_fitness cEmbed "q" (.texts ["s0", "s1", "s2"]) "summarize"
      = .ok (some [{ corpus_id := 1, score := 1 }, { corpus_id := 0, score := 1 },
          { corpus_id := 2, score := 0 }]) ∧
    ¬ List.Pairwise
        (fun a b => b.score ≤ a.score ∧ (a.score = b.score → a.corpus_id < b.corpus_id))
        ([{ corpus_id := 1, score := 1 }, { corpus_id := 0, score := 1 },
          { corpus_id := 2, score := 0 }] : List RankedEntry) := by
  constructor
  · rw [compute_fitness_summarize, cSearch_eval]
  · intro hp
    have h01 := (List.pairwise_cons.mp hp).1 { corpus_id := 0, score := 1 } (by simp)
    exact absurd (h01.2 rfl) (by decide)

/-- C4: Under the "summarize" policy, with the embedding provider honouring
its unit-norm contract, every score in a returned ranking equals the dot
product of the query embedding with the ranked author's summary embedding
(exact cosine similarity of unit vectors), and therefore lies in `[-1, 1]`. -/
theorem C4_summarize_cosine (embed : String → Vec) (query : String)
    (summaries : List String) (r : List RankedEntry)
    (hq : normSq (embed query) = 1)
    (hs : ∀ s ∈ summaries, normSq (embed s) = 1)
    (hr : compute_fitness embed query (.texts summaries) "summarize" = .ok (some r)) :
    ∀ e ∈ r, e.score = dot (embed query) (embed (summaries.getD e.corpus_id ""))
      ∧ -1 ≤ e.score ∧ e.score ≤ 1 := by
  rw [compute_fitness_summarize] at hr
  obtain ⟨rfl⟩ : semantic_search (embed query) (summaries.map embed) summaries.length = r := by
    simpa using hr
  intro e he
  obtain ⟨hid, hscore⟩ := mem_semantic_search (embed query) (summaries.map embed) _ e he
  rw [List.length_map] at hid
  have hgd : (summaries.map embed).getD e.corpus_id [] = embed (summaries.getD e.corpus_id "") :=
    getD_map embed summaries e.corpus_id [] "" hid
  rw [hgd] at hscore
  refine ⟨hscore, ?_⟩
  have hmem := getD_mem summaries e.corpus_id "" hid
  have hb := dot_unit_bounds (embed query) (embed (summaries.getD e.corpus_id "")) hq
    (hs _ hmem)
  rw [hscore]
  exact hb

/-- Witness for C4 at the first entry of the fixture ranking. -/
theorem C4_witness :
    ({ corpus_id := 0, score := 1 } : RankedEntry).score
        = dot (wEmbedOne "q")
            (wEmbedOne ((["a", "b"] : List String).getD
              ({ corpus_id := 0, score := 1 } : RankedEntry).corpus_id ""))
      ∧ -1 ≤ ({ corpus_id := 0, score := 1 } : RankedEntry).score
      ∧ ({ corpus_id := 0, score := 1 } : RankedEntry).score ≤ 1 :=
  C4_summarize_cosine wEmbedOne "q" ["a", "b"] wRanking
    (by norm_num [wEmbedOne, normSq, dot])
    (by intro s _; norm_num [wEmbedOne, normSq, dot])
    wCompute_eval
    { corpus_id := 0, score := 1 } (by simp [wRanking])

/-- C6: For any aggregation-policy value other than "aggregate" and
"summarize", `compute_fitness` raises immediately (its dispatch performs no
aggregation work before the raise), the exception propagates through the
orchestrator, and the run terminates with that error, so no output file is
produced. -/
theorem C6_unknown_policy_fatal (embed : String → Vec)
    (gen_just : QueryDict → String → ℤ → String)
    (build_author_profile : List RawRecord → List AuthorProfile)
    (policy : String) (output_path : String) (query_dict : QueryDict)
    (cache_exists : Bool) (cache_content : List AuthorProfile)
    (raw_database : List RawRecord) (query : String) (list_of_authors : AuthorsInput)
    (h1 : policy ≠ "aggregate") (h2 : policy ≠ "summarize") :
    compute_fitness embed query list_of_authors policy
      = .error ("Author Embedding:" ++ policy ++ " method not implemented") ∧
    main_run embed gen_just build_author_profile policy output_path query_dict
        cache_exists cache_content raw_database
      = .error ("Author Embedding:" ++ policy ++ " method not implemented") := by
  refine ⟨compute_fitness_unknown embed query list_of_authors policy h1 h2, ?_⟩
  exact main_run_error embed gen_just build_author_profile policy output_path query_dict
    cache_exists cache_content raw_database _
    (compute_fitness_unknown _ _ _ _ h1 h2)

/-- Witness for C6 at the unknown policy "foo". -/
theorem C6_witness :
    compute_fitness wEmbedOne "q" (.texts ["a"]) "foo"
      = .error ("Author Embedding:" ++ "foo" ++ " method not implemented") ∧
    main_run wEmbedOne wGenJust wBuild "foo" "log" wQuery true wDatabase []
      = .error ("Author Embedding:" ++ "foo" ++ " method not implemented") :=
  C6_unknown_policy_fatal wEmbedOne wGenJust wBuild "foo" "log" wQuery true wDatabase []
    "q" (.texts ["a"]) (by decide) (by decide)

/-- C7: Every completed run writes exactly one JSON line per author: the
lines are the serializations of the results, in rank order, one per ranked
entry and hence one per author of the database; the output path embeds the
aggregation policy name, and the paths of the two implemented policies never
coincide. -/
theorem C7_output_one_line_per_author (embed : String → Vec)
    (gen_just : QueryDict → String → ℤ → String)
    (build_author_profile : List RawRecord → List AuthorProfile)
    (policy : String) (output_path : String) (query_dict : QueryDict)
    (cache_exists : Bool) (cache_content : List AuthorProfile)
    (raw_database : List RawRecord) (r : List RankedEntry) (out : MainOutput)
    (hr : compute_fitness embed (build_query query_dict)
        (authorsInputOf policy
          (load_or_build cache_exists cache_content raw_database build_author_profile))
        policy = .ok (some r))
    (hout : main_run embed gen_just build_author_profile policy output_path query_dict
        cache_exists cache_content raw_database = .ok (some out)) :
    out.lines = out.results.map (fun item => json_dumps_result item ++ "\n") ∧
    out.results = r.map (resultOf gen_just
      (load_or_build cache_exists cache_content raw_database build_author_profile)
      query_dict) ∧
    out.lines.length
      = (load_or_build cache_exists cache_content raw_database build_author_profile).length ∧
    out.out_path = os_path_join output_path ("output_" ++ policy ++ ".txt") ∧
    (∀ op2 : String, os_path_join op2 "output_aggregate.txt"
        ≠ os_path_join op2 "output_summarize.txt") := by
  have hmain := main_run_ok embed gen_just build_author_profile policy output_path
    query_dict cache_exists cache_content raw_database r hr
  rw [hout] at hmain
  have hinj := Option.some.inj (Except.ok.inj hmain)
  subst hinj
  refine ⟨rfl, rfl, ?_, rfl, out_path_ne⟩
  have hlen := compute_fitness_ok_length embed (build_query query_dict) _ policy r hr
  rw [authorsInputOf_numAuthors] at hlen
  simp [hlen]

/-- Witness for C7 at the fixture run. -/
theorem C7_witness :
    wOut.lines = wOut.results.map (fun item => json_dumps_result item ++ "\n") ∧
    wOut.results = wRanking.map (resultOf wGenJust (load_or_build true wDatabase [] wBuild)
      wQuery) ∧
    wOut.lines.length = (load_or_build true wDatabase [] wBuild).length ∧
    wOut.out_path = os_path_join "log" ("output_" ++ "summarize" ++ ".txt") ∧
    (∀ op2 : String, os_path_join op2 "output_aggregate.txt"
        ≠ os_path_join op2 "output_summarize.txt") :=
  C7_output_one_line_per_author wEmbedOne wGenJust wBuild "summarize" "log" wQuery true
    wDatabase [] wRanking wOut
    wComputeMain_eval
    (main_run_ok wEmbedOne wGenJust wBuild "summarize" "log" wQuery true wDatabase []
      wRanking wComputeMain_eval)

/-- C8: In every completed run the Justification Service is called exactly
once per ranked entry, in rank order (the trace of calls is the rank-order
map of the per-entry call, so call `i` precedes call `i+1`), with no retries
and no caching; the score passed to call `i` is the ranked score multiplied
by 100 and rounded to an integer, while the `fitness` field written to the
output keeps the unrounded score. -/
theorem C8_justification_exactly_once_in_order (embed : String → Vec)
    (gen_just : QueryDict → String → ℤ → String)
    (build_author_profile : List RawRecord → List AuthorProfile)
    (policy : String) (output_path : String) (query_dict : QueryDict)
    (cache_exists : Bool) (cache_content : List AuthorProfile)
    (raw_database : List RawRecord) (r : List RankedEntry) (out : MainOutput)
    (hr : compute_fitness embed (build_query query_dict)
        (authorsInputOf policy
          (load_or_build cache_exists cache_content raw_database build_author_profile))
        policy = .ok (some r))
    (hout : main_run embed gen_just build_author_profile policy output_path query_dict
        cache_exists cache_content raw_database = .ok (some out)) :
    out.just_calls = r.map (callOf
      (load_or_build cache_exists cache_content raw_database build_author_profile)
      query_dict) ∧
    out.just_calls.length = r.length ∧
    (∀ (i : ℕ) (hi : i < r.length),
        out.just_calls[i]? = some
          { query := query_dict,
            summary := ((load_or_build cache_exists cache_content raw_database
                build_author_profile).getD (r[i]).corpus_id emptyProfile).summary,
            score := pyRound ((r[i]).score * 100) }) ∧
    out.results.map Result.fitness = r.map RankedEntry.score := by
  have hmain := main_run_ok embed gen_just build_author_profile policy output_path
    query_dict cache_exists cache_content raw_database r hr
  rw [hout] at hmain
  have hinj := Option.some.inj (Except.ok.inj hmain)
  subst hinj
  refine ⟨rfl, by simp, ?_, ?_⟩
  · intro i hi
    rw [List.getElem?_map, List.getElem?_eq_getElem hi]
    rfl
  · rw [List.map_map]
    rfl

/-- Witness for C8 at the fixture run. -/
theorem C8_witness :
    wOut.just_calls = wRanking.map (callOf (load_or_build true wDatabase [] wBuild)
      wQuery) ∧
    wOut.just_calls.length = wRanking.length ∧
    (∀ (i : ℕ) (hi : i < wRanking.length),
        wOut.just_calls[i]? = some
          { query := wQuery,
            summary := ((load_or_build true wDatabase [] wBuild).getD
              (wRanking[i]).corpus_id emptyProfile).summary,
            score := pyRound ((wRanking[i]).score * 100) }) ∧
    wOut.results.map Result.fitness = wRanking.map RankedEntry.score :=
  C8_justification_exactly_once_in_order wEmbedOne wGenJust wBuild "summarize" "log"
    wQuery true wDatabase [] wRanking wOut
    wComputeMain_eval
    (main_run_ok wEmbedOne wGenJust wBuild "summarize" "log" wQuery true wDatabase []
      wRanking wComputeMain_eval)
